import Mathlib

/-!
Verification of the C4-WSRS reverse-substitution core
(`tensorflow_datasets/text/c4_wsrs/c4_wsrs_utils.py` and
`tensorflow_datasets/text/c4_wsrs/c4_wsrs.py`).

Snippet text is modelled as `List Char`; Python `str.isalnum` is modelled by
`Char.isAlphanum` (the snippets considered are ASCII).  Randomness is made
explicit: `random.shuffle(pairs); pairs[0]` is modelled by selecting
`pairs[choose t % pairs.length]` for an arbitrary stream `choose : Nat → Nat`
(the first element of a uniformly shuffled list can be any element), and
`np.random.uniform(0, 1)` by an arbitrary stream `draw : Nat → ℚ` of values in
`[0, 1)`, both indexed by the loop-iteration counter.  The `while` loop of
`_abbreviate_snippet` does not terminate when an empty expansion is applied,
so it is modelled with fuel, returning `none` on nontermination.
-/

namespace C4WSRS

/-- The apostrophe character compared against by `_snippet_contains_word_at_index`. -/
def apostrophe : Char := Char.ofNat 39

/-- Association-list lookup, modelling Python `dict` key lookup
(`k in d` / `d[k]`). -/
def alookup {α β : Type} [DecidableEq α] : List (α × β) → α → Option β
  | [], _ => none
  | e :: rest, k => if e.1 = k then some e.2 else alookup rest k

/-- One (abbreviation, expansion) pair. -/
abbrev AEPair := List Char × List Char

/-- The abbreviation dictionary: an ordered association list from an
abbreviation to its list of expansions, modelling the insertion-ordered
Python `dict`/`defaultdict`. -/
abbrev AbbrevDict := List (List Char × List (List Char))

/-- `_get_dictionary_pairs` of `c4_wsrs_utils.py`: flattens the dictionary
into (abbreviation, expansion) pairs in iteration order. -/
def get_dictionary_pairs (dictionary : AbbrevDict) : List AEPair :=
  dictionary.flatMap fun ae => ae.2.map fun e => (ae.1, e)

/-- `_snippet_contains_word_at_index` of `c4_wsrs_utils.py`.  Out-of-range
character accesses use the default `' '`; every access is in range whenever
`index ≤ snippet.length` (the function is only invoked with
`index < snippet.length`). -/
def snippet_contains_word_at_index (snippet word : List Char) (index : Nat) : Bool :=
  if (snippet.drop index).take word.length ≠ word then false
  else if 0 < index ∧ (snippet.getD (index - 1) ' ').isAlphanum then false
  else if 1 < index ∧ snippet.getD (index - 1) ' ' = apostrophe ∧
      (snippet.getD (index - 2) ' ').isAlphanum then false
  else if index + word.length < snippet.length ∧
      (snippet.getD (index + word.length) ' ').isAlphanum then false
  else true

/-- The word-boundary condition as the specification states it: the substring
matches, the left boundary is not alphanumeric (with the apostrophe lookback),
and the right boundary is not alphanumeric. -/
def boundary_match_spec (s w : List Char) (i : Nat) : Prop :=
  (s.drop i).take w.length = w ∧
  (i = 0 ∨ ¬ (s.getD (i - 1) ' ').isAlphanum) ∧
  ¬ (1 < i ∧ s.getD (i - 1) ' ' = apostrophe ∧ (s.getD (i - 2) ' ').isAlphanum) ∧
  (i + w.length = s.length ∨ ¬ (s.getD (i + w.length) ' ').isAlphanum)

/-- `_extract_abbreviation_expansion_pairs` of `c4_wsrs_utils.py`: for each
index of the snippet, collect the dictionary pairs whose expansion occurs at
that index at a word boundary; indices with no pair are absent. -/
def extract_abbreviation_expansion_pairs (snippet : List Char)
    (abbreviation_expansions_dict : AbbrevDict) : List (Nat × List AEPair) :=
  (List.range snippet.length).filterMap fun snippet_idx =>
    let pairs := (get_dictionary_pairs abbreviation_expansions_dict).filter
      fun ae => snippet_contains_word_at_index snippet ae.2 snippet_idx
    if pairs = [] then none else some (snippet_idx, pairs)

/-- Loop body of `_abbreviate_snippet` of `c4_wsrs_utils.py`, with explicit
fuel (the Python loop diverges if an empty expansion is applied).  `choose`
and `draw` are the explicit random streams described in the file header,
indexed by the remaining fuel, which strictly decreases at every iteration. -/
def abbreviate_snippet_aux (snippet : List Char) (index_to_pairs : List (Nat × List AEPair))
    (choose : Nat → Nat) (draw : Nat → ℚ) (abbreviation_rate : ℚ) :
    Nat → Nat → Option (List Char × List AEPair)
  | 0, _ => none
  | fuel + 1, snippet_idx =>
    if snippet_idx < snippet.length then
      match alookup index_to_pairs snippet_idx with
      | some pairs =>
        if draw fuel < abbreviation_rate then
          (abbreviate_snippet_aux snippet index_to_pairs choose draw abbreviation_rate fuel
              (snippet_idx + (pairs.getD (choose fuel % pairs.length) ([], [])).2.length)).map
            (fun tr => ((pairs.getD (choose fuel % pairs.length) ([], [])).1 ++ tr.1,
              pairs.getD (choose fuel % pairs.length) ([], []) :: tr.2))
        else
          (abbreviate_snippet_aux snippet index_to_pairs choose draw abbreviation_rate fuel
              (snippet_idx + 1)).map
            (fun tr => (snippet.getD snippet_idx ' ' :: tr.1, tr.2))
      | none =>
        (abbreviate_snippet_aux snippet index_to_pairs choose draw abbreviation_rate fuel
            (snippet_idx + 1)).map
          (fun tr => (snippet.getD snippet_idx ' ' :: tr.1, tr.2))
    else some ([], [])

/-- `_abbreviate_snippet` of `c4_wsrs_utils.py`.  The cursor advances by at
least one position per iteration unless an empty expansion is applied, so
`snippet.length + 1` units of fuel suffice for every terminating run. -/
def abbreviate_snippet (snippet : List Char) (index_to_pairs : List (Nat × List AEPair))
    (choose : Nat → Nat) (draw : Nat → ℚ) (abbreviation_rate : ℚ) :
    Option (List Char × List AEPair) :=
  abbreviate_snippet_aux snippet index_to_pairs choose draw abbreviation_rate
    (snippet.length + 1) 0

/-- `WSRSFeatures` of `c4_wsrs_utils.py`. -/
structure WSRSFeatures where
  original_snippet : List Char
  abbreviated_snippet : List Char
deriving DecidableEq

/-- The substitution stage of `reverse_substitution`: the match map is built,
and `_abbreviate_snippet` is invoked only when the map is non-empty. -/
def substitution_stage (snippet : List Char) (abbreviation_expansions_dict : AbbrevDict)
    (choose : Nat → Nat) (draw : Nat → ℚ) (abbreviation_rate : ℚ) :
    Option (List Char × List AEPair) :=
  if extract_abbreviation_expansion_pairs snippet abbreviation_expansions_dict = [] then
    some (snippet, [])
  else
    abbreviate_snippet snippet
      (extract_abbreviation_expansion_pairs snippet abbreviation_expansions_dict)
      choose draw abbreviation_rate

/-- `reverse_substitution` of `c4_wsrs_utils.py`: the yielded records as a
list (`none` when the substitution stage diverges).  Snippets whose
abbreviated text has fewer than 3 space-separated tokens yield nothing; an
empty replacement list yields the single sentinel-keyed record. -/
def reverse_substitution (key snippet : List Char) (abbreviation_rate : ℚ)
    (abbreviation_expansions_dict : AbbrevDict)
    (choose : Nat → Nat) (draw : Nat → ℚ) :
    Option (List (AEPair × (List Char × WSRSFeatures))) :=
  (substitution_stage snippet abbreviation_expansions_dict choose draw abbreviation_rate).map
    fun ar =>
      if (ar.1.splitOn ' ').length < 3 then []
      else if ar.2 = [] then
        [(([], []), (key, (⟨snippet, ar.1⟩ : WSRSFeatures)))]
      else
        ar.2.map fun replacement =>
          (replacement, (key, (⟨snippet, ar.1⟩ : WSRSFeatures)))

/-- Loop of `sample_snippets_by_replacement`: yield a record, decrement the
limit, stop once the limit is ≤ 0. -/
def sample_snippets_aux : List (List Char × WSRSFeatures) → Int →
    List (List Char × WSRSFeatures)
  | [], _ => []
  | e :: rest, limit =>
    e :: (if limit - 1 ≤ 0 then [] else sample_snippets_aux rest (limit - 1))

/-- `sample_snippets_by_replacement` of `c4_wsrs_utils.py`. -/
def sample_snippets_by_replacement
    (snippets_by_replacement : AEPair × List (List Char × WSRSFeatures))
    (num_snippets_per_replacement : Int) : List (List Char × WSRSFeatures) :=
  if num_snippets_per_replacement = 0 then []
  else sample_snippets_aux snippets_by_replacement.2 num_snippets_per_replacement

/-- `C4WSRSConfig` of `c4_wsrs.py`: the configuration fields stored by
`C4WSRSConfig.__init__`. -/
structure C4WSRSConfig where
  name : List Char
  max_sentences_per_snippet : Int
  abbreviation_rate : ℚ
  num_snippets_per_replacement : Int
deriving DecidableEq

/-- `C4WSRSConfig.__init__` of `c4_wsrs.py` as a fallible constructor: the
body only stores its arguments and contains no validation or raise, so it
always returns `Except.ok`. -/
def mkC4WSRSConfig (name : List Char) (max_sentences_per_snippet : Int)
    (abbreviation_rate : ℚ) (num_snippets_per_replacement : Int) :
    Except (List Char) C4WSRSConfig :=
  Except.ok ⟨name, max_sentences_per_snippet, abbreviation_rate,
    num_snippets_per_replacement⟩

/-- Pointwise update of every entry of an association list holding a given
key, modelling in-place mutation of a Python `dict` value. -/
def update_value (d : AbbrevDict) (k : List Char)
    (f : List (List Char) → List (List Char)) : AbbrevDict :=
  d.map fun e => if e.1 = k then (e.1, f e.2) else e

/-- One row of `_convert_abbrev_expansion_table_to_dict` of `c4_wsrs.py`:
if the abbreviation is absent its entry is created as `[]`, and the expansion
is then appended only if it is not already present (an expansion is never a
member of a freshly created empty entry, so in the absent case it is always
appended). -/
def table_step (d : AbbrevDict) (row : AEPair) : AbbrevDict :=
  match alookup d row.1 with
  | none => update_value (d ++ [(row.1, [])]) row.1 (fun l => l ++ [row.2])
  | some es => if row.2 ∈ es then d else update_value d row.1 (fun l => l ++ [row.2])

/-- `_convert_abbrev_expansion_table_to_dict` of `c4_wsrs.py` over a list of
(abbreviation, expansion) rows. -/
def convert_abbrev_expansion_table_to_dict (rows : List AEPair) : AbbrevDict :=
  rows.foldl table_step []

/-- One row of the dictionary-building loop in `C4WSRS._split_generators` of
`c4_wsrs.py`: `defaultdict(list)` with an unconditional
`abbreviation_expansions_dict[abbrev].append(exp)` — a missing entry is
created as `[]` and the expansion is always appended. -/
def split_generators_step (d : AbbrevDict) (row : AEPair) : AbbrevDict :=
  match alookup d row.1 with
  | none => update_value (d ++ [(row.1, [])]) row.1 (fun l => l ++ [row.2])
  | some _ => update_value d row.1 (fun l => l ++ [row.2])

/-- The abbreviation dictionary actually built by `C4WSRS._split_generators`
of `c4_wsrs.py` from the CSV rows. -/
def split_generators_dict (rows : List AEPair) : AbbrevDict :=
  rows.foldl split_generators_step []

/-- The specification's description of the per-abbreviation expansion list:
keep the expansions in first-seen order, appending one only if it is not
already present. -/
def first_seen_dedup_spec (l : List (List Char)) : List (List Char) :=
  l.foldl (fun acc e => if e ∈ acc then acc else acc ++ [e]) []

/-- First-seen de-duplication starting from an already-accumulated prefix;
`first_seen_dedup_spec l = dedup_into [] l`. -/
def dedup_into (acc : List (List Char)) (l : List (List Char)) : List (List Char) :=
  l.foldl (fun acc e => if e ∈ acc then acc else acc ++ [e]) acc

/-- Deterministic specialization of `abbreviate_snippet_aux`: always take the
first candidate and always apply it.  When every candidate list of the match
map is a singleton and every draw is below the abbreviation rate, the
randomized loop coincides with this function. -/
def greedy_abbreviate_aux (snippet : List Char) (index_to_pairs : List (Nat × List AEPair)) :
    Nat → Nat → Option (List Char × List AEPair)
  | 0, _ => none
  | fuel + 1, snippet_idx =>
    if snippet_idx < snippet.length then
      match alookup index_to_pairs snippet_idx with
      | some pairs =>
        (greedy_abbreviate_aux snippet index_to_pairs fuel
            (snippet_idx + (pairs.getD 0 ([], [])).2.length)).map
          (fun tr => ((pairs.getD 0 ([], [])).1 ++ tr.1, pairs.getD 0 ([], []) :: tr.2))
      | none =>
        (greedy_abbreviate_aux snippet index_to_pairs fuel (snippet_idx + 1)).map
          (fun tr => (snippet.getD snippet_idx ' ' :: tr.1, tr.2))
    else some ([], [])

/-- The snippet of the specification's boundary-matcher test case. -/
def c1_snippet : List Char := "the -patient's family is in the emergency room.".toList

/-- The snippet of the specification's matcher/substitution test case. -/
def c2_snippet : List Char := "the patient is in the emergency room.".toList

/-- The dictionary of the specification's matcher/substitution test case. -/
def c2_dict : AbbrevDict :=
  [("pt".toList, ["patient".toList]), ("er".toList, ["emergency room".toList])]

/-! ## Helper lemmas -/

theorem snippet_contains_iff (s w : List Char) (i : Nat) :
    snippet_contains_word_at_index s w i = true ↔ boundary_match_spec s w i := by
  unfold snippet_contains_word_at_index boundary_match_spec
  split_ifs with h1 h2 h3 h4
  · constructor
    · intro h; cases h
    · intro h; exact absurd h.1 h1
  · constructor
    · intro h; cases h
    · rintro ⟨-, hleft, -, -⟩
      rcases hleft with hi | hna
      · omega
      · exact hna h2.2
  · constructor
    · intro h; cases h
    · rintro ⟨-, -, hap, -⟩
      exact hap h3
  · constructor
    · intro h; cases h
    · rintro ⟨-, -, -, hright⟩
      rcases hright with he | hna
      · omega
      · exact hna h4.2
  · simp only [true_iff, iff_true]
    refine ⟨not_not.mp (fun hc => h1 hc), ?_, h3, ?_⟩
    · rcases Nat.eq_zero_or_pos i with hi | hi
      · exact Or.inl hi
      · exact Or.inr fun ha => h2 ⟨hi, ha⟩
    · rcases Nat.lt_trichotomy (i + w.length) s.length with hlt | heq | hgt
      · exact Or.inr fun ha => h4 ⟨hlt, ha⟩
      · exact Or.inl heq
      · refine Or.inr ?_
        rw [List.getD_eq_default _ _ (Nat.le_of_lt hgt)]
        decide

theorem alookup_mem {α β : Type} [DecidableEq α] {d : List (α × β)} {k : α} {v : β}
    (h : alookup d k = some v) : (k, v) ∈ d := by
  induction d with
  | nil => cases h
  | cons e rest ih =>
    obtain ⟨a, b⟩ := e
    unfold alookup at h
    by_cases he : a = k
    · rw [if_pos he] at h
      injection h with hv
      subst he; subst hv
      exact List.mem_cons_self _ _
    · rw [if_neg he] at h
      exact List.mem_cons_of_mem _ (ih h)

theorem abbreviate_aux_always (snippet : List Char) (index_to_pairs : List (Nat × List AEPair))
    (choose : Nat → Nat) (draw : Nat → ℚ) (rate : ℚ)
    (hdraw : ∀ t, draw t < rate)
    (hsingle : ∀ e ∈ index_to_pairs, (e.2 : List AEPair).length = 1) :
    ∀ fuel snippet_idx,
      abbreviate_snippet_aux snippet index_to_pairs choose draw rate fuel snippet_idx =
        greedy_abbreviate_aux snippet index_to_pairs fuel snippet_idx := by
  intro fuel
  induction fuel with
  | zero => intro _; rfl
  | succ fuel ih =>
    intro idx
    unfold abbreviate_snippet_aux greedy_abbreviate_aux
    by_cases hlt : idx < snippet.length
    · simp only [if_pos hlt]
      cases hp : alookup index_to_pairs idx with
      | none => rw [ih]
      | some pairs =>
        dsimp only
        have h1 : pairs.length = 1 := hsingle (idx, pairs) (alookup_mem hp)
        rw [h1, Nat.mod_one, if_pos (hdraw fuel), ih]
    · simp only [if_neg hlt]

/-! ## Claims -/

/-- C1: the word-boundary matcher accepts `(s, w, i)` iff the substring at
`i` equals `w`, the left-boundary character (if any) is not alphanumeric, the
apostrophe lookback does not find an alphanumeric character, and the
right-boundary character (if any) is not alphanumeric; moreover on
`"the -patient's family is in the emergency room."`, `"patient"` matches at
index 5, `"s"` does not match at index 13, and `"fam"` does not match at
index 15. -/
theorem c1_word_boundary_matcher :
    (∀ (s w : List Char) (i : Nat), i ≤ s.length →
      (snippet_contains_word_at_index s w i = true ↔ boundary_match_spec s w i)) ∧
    snippet_contains_word_at_index c1_snippet ("patient".toList) 5 = true ∧
    snippet_contains_word_at_index c1_snippet ("s".toList) 13 = false ∧
    snippet_contains_word_at_index c1_snippet ("fam".toList) 15 = false :=
  ⟨fun s w i _ => snippet_contains_iff s w i, by decide, by decide, by decide⟩

/-- Witness for C1 at the concrete input `("patient", index 5)`. -/
theorem c1_word_boundary_matcher_witness :
    5 ≤ c1_snippet.length ∧ boundary_match_spec c1_snippet ("patient".toList) 5 :=
  ⟨by decide,
    (c1_word_boundary_matcher.1 c1_snippet ("patient".toList) 5 (by decide)).mp (by decide)⟩

/-- C2: on the snippet `"the patient is in the emergency room."` with the
dictionary `{"pt": ["patient"], "er": ["emergency room"]}`, the match map is
exactly `{4: [("pt","patient")], 22: [("er","emergency room")]}`, and — for
every outcome of the shuffle and of uniform draws in `[0, 1)` — substitution
at abbreviation rate 1 produces `"the pt is in the er."` with the replacement
list `[("pt","patient"), ("er","emergency room")]` in left-to-right order. -/
theorem c2_match_map_and_substitution :
    extract_abbreviation_expansion_pairs c2_snippet c2_dict =
      [(4, [("pt".toList, "patient".toList)]),
       (22, [("er".toList, "emergency room".toList)])] ∧
    ∀ (choose : Nat → Nat) (draw : Nat → ℚ),
      (∀ t, 0 ≤ draw t ∧ draw t < 1) →
      abbreviate_snippet c2_snippet (extract_abbreviation_expansion_pairs c2_snippet c2_dict)
          choose draw 1 =
        some ("the pt is in the er.".toList,
          [("pt".toList, "patient".toList), ("er".toList, "emergency room".toList)]) := by
  constructor
  · decide
  · intro choose draw hdraw
    unfold abbreviate_snippet
    rw [abbreviate_aux_always _ _ _ _ _ (fun t => (hdraw t).2) (by decide)]
    decide

/-- Witness for C2 with the constant-zero shuffle and draw streams. -/
theorem c2_match_map_and_substitution_witness :
    abbreviate_snippet c2_snippet (extract_abbreviation_expansion_pairs c2_snippet c2_dict)
        (fun _ => 0) (fun _ => 0) 1 =
      some ("the pt is in the er.".toList,
        [("pt".toList, "patient".toList), ("er".toList, "emergency room".toList)]) :=
  c2_match_map_and_substitution.2 (fun _ => 0) (fun _ => 0)
    (fun _ => ⟨by norm_num, by norm_num⟩)

theorem abbreviate_aux_never (snippet : List Char) (index_to_pairs : List (Nat × List AEPair))
    (choose : Nat → Nat) (draw : Nat → ℚ) (rate : ℚ)
    (hdraw : ∀ t, ¬ draw t < rate) :
    ∀ fuel snippet_idx, snippet.length - snippet_idx < fuel →
      abbreviate_snippet_aux snippet index_to_pairs choose draw rate fuel snippet_idx =
        some (snippet.drop snippet_idx, []) := by
  intro fuel
  induction fuel with
  | zero => intro idx h; omega
  | succ fuel ih =>
    intro idx hfuel
    unfold abbreviate_snippet_aux
    by_cases hlt : idx < snippet.length
    · have hrec := ih (idx + 1) (by omega)
      have hcons : snippet.getD idx ' ' :: snippet.drop (idx + 1) = snippet.drop idx := by
        rw [List.getD_eq_getElem _ _ hlt, ← List.drop_eq_getElem_cons hlt]
      simp only [if_pos hlt]
      cases hp : alookup index_to_pairs idx with
      | none => rw [hrec]; simp only [Option.map_some']; rw [hcons]
      | some pairs =>
        dsimp only
        rw [if_neg (hdraw fuel), hrec]
        simp only [Option.map_some']
        rw [hcons]
    · simp only [if_neg hlt]
      rw [List.drop_eq_nil_of_le (by omega)]

theorem substitution_stage_never (snippet : List Char) (dict : AbbrevDict)
    (choose : Nat → Nat) (draw : Nat → ℚ) (rate : ℚ)
    (hdraw : ∀ t, ¬ draw t < rate) :
    substitution_stage snippet dict choose draw rate = some (snippet, []) := by
  unfold substitution_stage abbreviate_snippet
  split_ifs with hm
  · rfl
  · rw [abbreviate_aux_never _ _ _ _ _ hdraw _ 0 (by omega), List.drop_zero]

/-- C8: at abbreviation rate 0 (uniform draws are ≥ 0, so no substitution is
ever applied), every snippet whose text has at least 3 space-separated tokens
yields exactly one record, keyed by the sentinel pair, whose abbreviated
snippet equals the original snippet. -/
theorem c8_rate_zero_identity (key snippet : List Char) (dict : AbbrevDict)
    (choose : Nat → Nat) (draw : Nat → ℚ)
    (hdraw : ∀ t, 0 ≤ draw t)
    (htok : 3 ≤ (snippet.splitOn ' ').length) :
    reverse_substitution key snippet 0 dict choose draw =
      some [(([], []), (key, ⟨snippet, snippet⟩))] := by
  unfold reverse_substitution
  rw [substitution_stage_never _ _ _ _ _ (fun t => not_lt.mpr (hdraw t))]
  simp only [Option.map_some']
  rw [if_neg (by omega)]
  simp

/-- Witness for C8 on the 6-token snippet of the specification's test case. -/
theorem c8_rate_zero_identity_witness :
    reverse_substitution ("k".toList) c2_snippet 0 c2_dict (fun _ => 0) (fun _ => 0) =
      some [(([], []), ("k".toList, ⟨c2_snippet, c2_snippet⟩))] :=
  c8_rate_zero_identity ("k".toList) c2_snippet c2_dict (fun _ => 0) (fun _ => 0)
    (fun _ => by norm_num) (by decide)

/-- C4: whenever the substitution stage produces an abbreviated text, the
snippet yields no records at all if that text splits into fewer than 3
space-separated tokens, and at least one record otherwise. -/
theorem c4_token_filter (key snippet : List Char) (dict : AbbrevDict)
    (choose : Nat → Nat) (draw : Nat → ℚ) (rate : ℚ) (abbr : List Char) (reps : List AEPair)
    (hs : substitution_stage snippet dict choose draw rate = some (abbr, reps)) :
    ∃ out, reverse_substitution key snippet rate dict choose draw = some out ∧
      ((abbr.splitOn ' ').length < 3 → out = []) ∧
      (3 ≤ (abbr.splitOn ' ').length → out ≠ []) := by
  unfold reverse_substitution
  rw [hs]
  simp only [Option.map_some']
  refine ⟨_, rfl, ?_, ?_⟩
  · intro h; rw [if_pos h]
  · intro h
    rw [if_neg (by omega)]
    by_cases hr : reps = []
    · rw [if_pos hr]; simp
    · rw [if_neg hr]; simp [hr]

/-- Witness for C4 at the specification's test-case snippet and dictionary
with abbreviation rate 1. -/
theorem c4_token_filter_witness :
    ∃ out, reverse_substitution ("k".toList) c2_snippet 1 c2_dict (fun _ => 0) (fun _ => 0) =
        some out ∧
      ((("the pt is in the er.".toList).splitOn ' ').length < 3 → out = []) ∧
      (3 ≤ (("the pt is in the er.".toList).splitOn ' ').length → out ≠ []) :=
  c4_token_filter ("k".toList) c2_snippet c2_dict (fun _ => 0) (fun _ => 0) 1
    ("the pt is in the er.".toList)
    [("pt".toList, "patient".toList), ("er".toList, "emergency room".toList)] (by decide)

/-- C9: for a snippet that passes the token filter, a non-empty replacement
list yields exactly one record per entry (in order, duplicates allowed) and no
sentinel record, an empty replacement list yields exactly the sentinel-keyed
record, and all records carry the identical original/abbreviated payload. -/
theorem c9_record_structure (key snippet : List Char) (dict : AbbrevDict)
    (choose : Nat → Nat) (draw : Nat → ℚ) (rate : ℚ) (abbr : List Char) (reps : List AEPair)
    (hs : substitution_stage snippet dict choose draw rate = some (abbr, reps))
    (hf : 3 ≤ (abbr.splitOn ' ').length) :
    ∃ out, reverse_substitution key snippet rate dict choose draw = some out ∧
      out.map Prod.fst = (if reps = [] then [([], [])] else reps) ∧
      out.length = (if reps = [] then 1 else reps.length) ∧
      ∀ p ∈ out, p.2 = (key, (⟨snippet, abbr⟩ : WSRSFeatures)) := by
  unfold reverse_substitution
  rw [hs]
  simp only [Option.map_some']
  rw [if_neg (by omega)]
  refine ⟨_, rfl, ?_, ?_, ?_⟩
  · by_cases hr : reps = []
    · simp only [if_pos hr]; rfl
    · simp only [if_neg hr, List.map_map]
      have hcomp : (Prod.fst ∘ fun r : AEPair =>
          (r, (key, (⟨snippet, abbr⟩ : WSRSFeatures)))) = id := rfl
      rw [hcomp, List.map_id]
  · by_cases hr : reps = []
    · simp only [if_pos hr]; rfl
    · simp only [if_neg hr, List.length_map]
  · by_cases hr : reps = []
    · simp only [if_pos hr]
      intro p hp
      simp only [List.mem_singleton] at hp
      subst hp; rfl
    · simp only [if_neg hr]
      intro p hp
      simp only [List.mem_map] at hp
      obtain ⟨q, -, rfl⟩ := hp
      rfl

/-- Witness for C9 at the specification's test-case snippet and dictionary
with abbreviation rate 1. -/
theorem c9_record_structure_witness :
    ∃ out, reverse_substitution ("k".toList) c2_snippet 1 c2_dict (fun _ => 0) (fun _ => 0) =
        some out ∧
      out.map Prod.fst =
        (if ([("pt".toList, "patient".toList), ("er".toList, "emergency room".toList)] :
            List AEPair) = [] then [([], [])]
         else [("pt".toList, "patient".toList), ("er".toList, "emergency room".toList)]) ∧
      out.length =
        (if ([("pt".toList, "patient".toList), ("er".toList, "emergency room".toList)] :
            List AEPair) = [] then 1
         else [("pt".toList, "patient".toList), ("er".toList, "emergency room".toList)].length) ∧
      ∀ p ∈ out,
        p.2 = (("k".toList),
          (⟨c2_snippet, "the pt is in the er.".toList⟩ : WSRSFeatures)) :=
  c9_record_structure ("k".toList) c2_snippet c2_dict (fun _ => 0) (fun _ => 0) 1
    ("the pt is in the er.".toList)
    [("pt".toList, "patient".toList), ("er".toList, "emergency room".toList)]
    (by decide) (by decide)

theorem extract_sound (snippet : List Char) (dict : AbbrevDict) (idx : Nat)
    (pairs : List AEPair)
    (hp : alookup (extract_abbreviation_expansion_pairs snippet dict) idx = some pairs) :
    ∀ ae ∈ pairs, ae ∈ get_dictionary_pairs dict ∧ idx + ae.2.length ≤ snippet.length := by
  have hmem := alookup_mem hp
  unfold extract_abbreviation_expansion_pairs at hmem
  rw [List.mem_filterMap] at hmem
  obtain ⟨j, hj, hf⟩ := hmem
  rw [List.mem_range] at hj
  dsimp only at hf
  split_ifs at hf with he
  simp only [Option.some.injEq, Prod.mk.injEq] at hf
  obtain ⟨hji, rfl⟩ := hf
  intro ae hae
  rw [List.mem_filter] at hae
  refine ⟨hae.1, ?_⟩
  have hsub := ((snippet_contains_iff snippet ae.2 j).mp hae.2).1
  have hlen := congrArg List.length hsub
  rw [List.length_take, List.length_drop] at hlen
  omega

theorem abbreviate_aux_length (snippet : List Char) (index_to_pairs : List (Nat × List AEPair))
    (choose : Nat → Nat) (draw : Nat → ℚ) (rate : ℚ)
    (hm : ∀ idx pairs, alookup index_to_pairs idx = some pairs →
      ∀ ae ∈ pairs, ae.1.length ≤ ae.2.length ∧ idx + ae.2.length ≤ snippet.length) :
    ∀ fuel idx t r,
      abbreviate_snippet_aux snippet index_to_pairs choose draw rate fuel idx =
        some (t, r) →
      t.length ≤ snippet.length - idx := by
  intro fuel
  induction fuel with
  | zero => intro idx t r h; cases h
  | succ fuel ih =>
    intro idx t r h
    unfold abbreviate_snippet_aux at h
    by_cases hlt : idx < snippet.length
    · rw [if_pos hlt] at h
      cases hp : alookup index_to_pairs idx with
      | none =>
        rw [hp] at h
        dsimp only at h
        cases hrec : abbreviate_snippet_aux snippet index_to_pairs choose draw rate fuel
            (idx + 1) with
        | none => rw [hrec] at h; cases h
        | some tr =>
          rw [hrec] at h
          simp only [Option.map_some'] at h
          injection h with h1
          have h2 := congrArg Prod.fst h1.symm
          dsimp only at h2
          have := ih (idx + 1) tr.1 tr.2 (by rw [hrec])
          rw [h2]
          simp only [List.length_cons]
          omega
      | some pairs =>
        rw [hp] at h
        dsimp only at h
        split_ifs at h with hd
        · cases hrec : abbreviate_snippet_aux snippet index_to_pairs choose draw rate fuel
              (idx + (pairs.getD (choose fuel % pairs.length) ([], [])).2.length) with
          | none => rw [hrec] at h; cases h
          | some tr =>
            rw [hrec] at h
            simp only [Option.map_some'] at h
            injection h with h1
            have h2 := congrArg Prod.fst h1.symm
            dsimp only at h2
            have hihr := ih _ tr.1 tr.2 (by rw [hrec])
            by_cases hne : pairs = []
            · subst hne
              simp only [List.getD_nil, List.nil_append, List.length_nil, Nat.add_zero]
                at h2 hihr
              rw [h2]
              omega
            · have hlt2 : choose fuel % pairs.length < pairs.length :=
                Nat.mod_lt _ (List.length_pos.mpr hne)
              have haemem : pairs.getD (choose fuel % pairs.length) ([], []) ∈ pairs := by
                rw [List.getD_eq_getElem _ _ hlt2]
                exact List.getElem_mem hlt2
              obtain ⟨hle, hfit⟩ := hm idx pairs hp _ haemem
              rw [h2]
              simp only [List.length_append]
              omega
        · cases hrec : abbreviate_snippet_aux snippet index_to_pairs choose draw rate fuel
              (idx + 1) with
          | none => rw [hrec] at h; cases h
          | some tr =>
            rw [hrec] at h
            simp only [Option.map_some'] at h
            injection h with h1
            have h2 := congrArg Prod.fst h1.symm
            dsimp only at h2
            have := ih (idx + 1) tr.1 tr.2 (by rw [hrec])
            rw [h2]
            simp only [List.length_cons]
            omega
    · rw [if_neg hlt] at h
      injection h with h1
      have h2 := congrArg Prod.fst h1.symm
      dsimp only at h2
      rw [h2]
      simp

/-- C6 as stated is false: with the dictionary `{"ab": ["a"]}`, whose
abbreviation is longer than its expansion, substituting in the snippet
`"a b"` (length 3) at rate 1 produces `"ab b"` (length 4). -/
theorem c6_counterexample :
    abbreviate_snippet ("a b".toList)
        (extract_abbreviation_expansion_pairs ("a b".toList) [("ab".toList, ["a".toList])])
        (fun _ => 0) (fun _ => 0) 1 =
      some ("ab b".toList, [("ab".toList, "a".toList)]) ∧
    ¬ (("ab b".toList).length ≤ ("a b".toList).length) :=
  ⟨by decide, by decide⟩

/-- C6 amended: for every snippet, abbreviation rate, and outcome of the
random draws, and every dictionary in which no abbreviation is longer than
its expansion, any abbreviated snippet produced by the substitution satisfies
`len(abbreviated) ≤ len(original)`. -/
theorem c6_length_bound (snippet : List Char) (dict : AbbrevDict)
    (choose : Nat → Nat) (draw : Nat → ℚ) (rate : ℚ) (t : List Char) (r : List AEPair)
    (hdict : ∀ ae ∈ get_dictionary_pairs dict, (ae : AEPair).1.length ≤ ae.2.length)
    (h : abbreviate_snippet snippet (extract_abbreviation_expansion_pairs snippet dict)
        choose draw rate = some (t, r)) :
    t.length ≤ snippet.length := by
  have hb := abbreviate_aux_length snippet
    (extract_abbreviation_expansion_pairs snippet dict) choose draw rate
    (fun idx pairs hp ae hae =>
      ⟨hdict ae (extract_sound snippet dict idx pairs hp ae hae).1,
        (extract_sound snippet dict idx pairs hp ae hae).2⟩)
    (snippet.length + 1) 0 t r h
  omega

/-- Witness for C6 (amended) at the specification's test-case snippet with
the dictionary `{"pt": ["patient"]}` and rate 1. -/
theorem c6_length_bound_witness :
    ("the pt is in the emergency room.".toList).length ≤ c2_snippet.length :=
  c6_length_bound c2_snippet [("pt".toList, ["patient".toList])] (fun _ => 0) (fun _ => 0) 1
    ("the pt is in the emergency room.".toList) [("pt".toList, "patient".toList)]
    (by decide) (by decide)

theorem sample_aux_take (l : List (List Char × WSRSFeatures)) :
    ∀ n : Int, 0 < n → sample_snippets_aux l n = l.take n.toNat := by
  induction l with
  | nil => intro n _; simp [sample_snippets_aux]
  | cons e rest ih =>
    intro n hn
    unfold sample_snippets_aux
    have ht : n.toNat = (n - 1).toNat + 1 := by omega
    rw [ht, List.take_succ_cons]
    by_cases h1 : n - 1 ≤ 0
    · rw [if_pos h1]
      have : (n - 1).toNat = 0 := by omega
      rw [this, List.take_zero]
    · rw [if_neg h1, ih (n - 1) (by omega)]

/-- C7: for every group of records and every non-negative cap, the sampler
retains exactly the first `min(cap, group size)` records of the group in
encounter order — in particular a cap of 0 yields no records and the output
never exceeds the cap. -/
theorem c7_sampler_cap (g : AEPair × List (List Char × WSRSFeatures)) (n : Int)
    (hn : 0 ≤ n) :
    sample_snippets_by_replacement g n = g.2.take n.toNat ∧
    (sample_snippets_by_replacement g n).length = min n.toNat g.2.length := by
  have hmain : sample_snippets_by_replacement g n = g.2.take n.toNat := by
    unfold sample_snippets_by_replacement
    by_cases h0 : n = 0
    · rw [if_pos h0, h0]
      simp
    · rw [if_neg h0, sample_aux_take g.2 n (by omega)]
  exact ⟨hmain, by rw [hmain, List.length_take]⟩

/-- Witness for C7 with a two-record group and cap 1. -/
theorem c7_sampler_cap_witness :
    sample_snippets_by_replacement
        (([], []), [("k1".toList, ⟨[], []⟩), ("k2".toList, ⟨[], []⟩)]) 1 =
      [("k1".toList, (⟨[], []⟩ : WSRSFeatures))] ∧
    0 ≤ (1 : Int) ∧
    (sample_snippets_by_replacement
        (([], []), [("k1".toList, ⟨[], []⟩), ("k2".toList, ⟨[], []⟩)]) 1).length =
      min ((1 : Int)).toNat 2 := by
  have h := c7_sampler_cap
    ((([], []), [("k1".toList, ⟨[], []⟩), ("k2".toList, ⟨[], []⟩)])) 1 (by norm_num)
  exact ⟨h.1, by norm_num, h.2⟩

/-- C10: a negative cap is not rejected and does not yield nothing: for every
non-empty group, the sampler yields exactly the first record of the group. -/
theorem c10_negative_cap (pair : AEPair) (e : List Char × WSRSFeatures)
    (rest : List (List Char × WSRSFeatures)) (n : Int) (hn : n < 0) :
    sample_snippets_by_replacement (pair, e :: rest) n = [e] := by
  unfold sample_snippets_by_replacement
  rw [if_neg (by omega)]
  unfold sample_snippets_aux
  rw [if_pos (by omega)]

/-- Witness for C10 with cap -1 and a two-record group. -/
theorem c10_negative_cap_witness :
    sample_snippets_by_replacement
        (([], []), [("k1".toList, ⟨[], []⟩), ("k2".toList, ⟨[], []⟩)]) (-1) =
      [("k1".toList, (⟨[], []⟩ : WSRSFeatures))] :=
  c10_negative_cap ([], []) ("k1".toList, ⟨[], []⟩) [("k2".toList, ⟨[], []⟩)] (-1)
    (by norm_num)

/-- C3 as stated is false: a configuration violating all three constraints
(`max_sentences_per_snippet = 0 < 1`, `abbreviation_rate = 2 ∉ [0,1]`,
`num_snippets_per_replacement = -1 < 0`) is accepted, not rejected with an
error. -/
theorem c3_counterexample :
    mkC4WSRSConfig ("bad".toList) 0 2 (-1) =
      Except.ok ⟨"bad".toList, 0, 2, -1⟩ := rfl

/-- C3 amended: configuration construction performs no validation — every
configuration, including those with `abbreviation_rate` outside `[0, 1]`,
`max_sentences_per_snippet < 1`, or negative `num_snippets_per_replacement`,
is accepted and stored unchanged, never rejected with an error. -/
theorem c3_no_validation (name : List Char) (max_sentences : Int)
    (rate : ℚ) (num_snippets : Int) :
    mkC4WSRSConfig name max_sentences rate num_snippets =
      Except.ok ⟨name, max_sentences, rate, num_snippets⟩ := rfl

theorem alookup_update_self {d : AbbrevDict} {k : List Char} {es : List (List Char)}
    (f : List (List Char) → List (List Char)) (h : alookup d k = some es) :
    alookup (update_value d k f) k = some (f es) := by
  induction d with
  | nil => cases h
  | cons e rest ih =>
    unfold alookup at h
    by_cases he : e.1 = k
    · rw [if_pos he] at h
      injection h with hv
      subst hv
      show alookup ((if e.1 = k then (e.1, f e.2) else e) :: update_value rest k f) k = _
      rw [if_pos he]
      unfold alookup
      rw [if_pos he]
    · rw [if_neg he] at h
      show alookup ((if e.1 = k then (e.1, f e.2) else e) :: update_value rest k f) k = _
      rw [if_neg he]
      unfold alookup
      rw [if_neg he]
      exact ih h

theorem alookup_update_other {d : AbbrevDict} {k k2 : List Char}
    (f : List (List Char) → List (List Char)) (hne : k2 ≠ k) :
    alookup (update_value d k f) k2 = alookup d k2 := by
  induction d with
  | nil => rfl
  | cons e rest ih =>
    show alookup ((if e.1 = k then (e.1, f e.2) else e) :: update_value rest k f) k2 = _
    by_cases he : e.1 = k
    · rw [if_pos he]
      unfold alookup
      rw [if_neg (by rw [he]; exact fun hc => hne hc.symm)]
      rw [if_neg (by rw [he]; exact fun hc => hne hc.symm)]
      exact ih
    · rw [if_neg he]
      unfold alookup
      by_cases he2 : e.1 = k2
      · rw [if_pos he2, if_pos he2]
      · rw [if_neg he2, if_neg he2]
        exact ih

theorem alookup_append_none {d : AbbrevDict} {k : List Char}
    (v : List (List Char)) (h : alookup d k = none) :
    alookup (d ++ [(k, v)]) k = some v := by
  induction d with
  | nil =>
    show (if k = k then some v else none) = some v
    rw [if_pos rfl]
  | cons e rest ih =>
    unfold alookup at h
    rw [List.cons_append]
    unfold alookup
    by_cases he : e.1 = k
    · rw [if_pos he] at h; cases h
    · rw [if_neg he] at h
      rw [if_neg he]
      exact ih h

theorem alookup_append_other {d : AbbrevDict} {k k2 : List Char}
    (v : List (List Char)) (hne : k2 ≠ k) :
    alookup (d ++ [(k, v)]) k2 = alookup d k2 := by
  induction d with
  | nil =>
    show (if k = k2 then some v else none) = none
    rw [if_neg (fun hc => hne hc.symm)]
  | cons e rest ih =>
    rw [List.cons_append]
    unfold alookup
    by_cases he : e.1 = k2
    · rw [if_pos he, if_pos he]
    · rw [if_neg he, if_neg he]
      exact ih

theorem table_step_self_some {d : AbbrevDict} {row : AEPair} {es : List (List Char)}
    (h : alookup d row.1 = some es) :
    alookup (table_step d row) row.1 =
      some (if row.2 ∈ es then es else es ++ [row.2]) := by
  unfold table_step
  rw [h]
  dsimp only
  split_ifs with hmem
  · exact h
  · exact alookup_update_self _ h

theorem table_step_self_none {d : AbbrevDict} {row : AEPair}
    (h : alookup d row.1 = none) :
    alookup (table_step d row) row.1 = some [row.2] := by
  unfold table_step
  rw [h]
  dsimp only
  exact alookup_update_self _ (alookup_append_none [] h)

theorem table_step_other {d : AbbrevDict} {row : AEPair} {ab : List Char}
    (hne : ab ≠ row.1) : alookup (table_step d row) ab = alookup d ab := by
  unfold table_step
  cases hm : alookup d row.1 with
  | none =>
    dsimp only
    rw [alookup_update_other _ hne]
    exact alookup_append_other [] hne
  | some es =>
    dsimp only
    split_ifs with hmem
    · rfl
    · exact alookup_update_other _ hne

theorem split_step_self_some {d : AbbrevDict} {row : AEPair} {es : List (List Char)}
    (h : alookup d row.1 = some es) :
    alookup (split_generators_step d row) row.1 = some (es ++ [row.2]) := by
  unfold split_generators_step
  rw [h]
  dsimp only
  exact alookup_update_self _ h

theorem split_step_self_none {d : AbbrevDict} {row : AEPair}
    (h : alookup d row.1 = none) :
    alookup (split_generators_step d row) row.1 = some [row.2] := by
  unfold split_generators_step
  rw [h]
  dsimp only
  exact alookup_update_self _ (alookup_append_none [] h)

theorem split_step_other {d : AbbrevDict} {row : AEPair} {ab : List Char}
    (hne : ab ≠ row.1) :
    alookup (split_generators_step d row) ab = alookup d ab := by
  unfold split_generators_step
  cases hm : alookup d row.1 with
  | none =>
    dsimp only
    rw [alookup_update_other _ hne]
    exact alookup_append_other [] hne
  | some es =>
    dsimp only
    exact alookup_update_other _ hne

theorem conv_foldl_some :
    ∀ (rows : List AEPair) (d : AbbrevDict) (ab : List Char) (es : List (List Char)),
      alookup d ab = some es →
      alookup (rows.foldl table_step d) ab =
        some (dedup_into es ((rows.filter fun r => r.1 = ab).map fun r => r.2)) := by
  intro rows
  induction rows with
  | nil =>
    intro d ab es h
    simpa [dedup_into] using h
  | cons r rest ih =>
    intro d ab es h
    rw [List.foldl_cons]
    by_cases hr : r.1 = ab
    · have hstep : alookup (table_step d r) ab =
          some (if r.2 ∈ es then es else es ++ [r.2]) := by
        rw [← hr]
        exact table_step_self_some (by rw [hr]; exact h)
      rw [ih _ ab _ hstep]
      congr 1
      rw [List.filter_cons_of_pos (by simpa using hr), List.map_cons]
      simp [dedup_into]
    · have hstep : alookup (table_step d r) ab = some es := by
        rw [table_step_other (fun hc => hr hc.symm)]
        exact h
      rw [ih _ ab _ hstep]
      congr 2
      rw [List.filter_cons_of_neg (by simpa using hr)]

theorem conv_foldl_none :
    ∀ (rows : List AEPair) (d : AbbrevDict) (ab : List Char),
      alookup d ab = none →
      alookup (rows.foldl table_step d) ab =
        (if ab ∈ rows.map Prod.fst then
          some (dedup_into [] ((rows.filter fun r => r.1 = ab).map fun r => r.2))
        else none) := by
  intro rows
  induction rows with
  | nil =>
    intro d ab h
    simpa using h
  | cons r rest ih =>
    intro d ab h
    rw [List.foldl_cons]
    by_cases hr : r.1 = ab
    · have hstep : alookup (table_step d r) ab = some [r.2] := by
        rw [← hr]
        exact table_step_self_none (by rw [hr]; exact h)
      rw [conv_foldl_some rest _ ab [r.2] hstep]
      rw [if_pos (by simp only [List.map_cons, List.mem_cons]; exact Or.inl hr.symm)]
      congr 1
      rw [List.filter_cons_of_pos (by simpa using hr), List.map_cons]
      simp [dedup_into]
    · have hstep : alookup (table_step d r) ab = none := by
        rw [table_step_other (fun hc => hr hc.symm)]
        exact h
      rw [ih _ ab hstep]
      have hfil : (r :: rest).filter (fun r0 => r0.1 = ab) =
          rest.filter (fun r0 => r0.1 = ab) :=
        List.filter_cons_of_neg (by simpa using hr)
      by_cases hm : ab ∈ rest.map Prod.fst
      · rw [if_pos hm,
          if_pos (by simp only [List.map_cons, List.mem_cons]; exact Or.inr hm), hfil]
      · rw [if_neg hm, if_neg (by
          simp only [List.map_cons, List.mem_cons]
          rintro (h1 | h1)
          · exact hr h1.symm
          · exact hm h1)]

theorem split_foldl_some :
    ∀ (rows : List AEPair) (d : AbbrevDict) (ab : List Char) (es : List (List Char)),
      alookup d ab = some es →
      alookup (rows.foldl split_generators_step d) ab =
        some (es ++ ((rows.filter fun r => r.1 = ab).map fun r => r.2)) := by
  intro rows
  induction rows with
  | nil =>
    intro d ab es h
    simpa using h
  | cons r rest ih =>
    intro d ab es h
    rw [List.foldl_cons]
    by_cases hr : r.1 = ab
    · have hstep : alookup (split_generators_step d r) ab = some (es ++ [r.2]) := by
        rw [← hr]
        exact split_step_self_some (by rw [hr]; exact h)
      rw [ih _ ab _ hstep]
      congr 1
      rw [List.filter_cons_of_pos (by simpa using hr), List.map_cons]
      simp
    · have hstep : alookup (split_generators_step d r) ab = some es := by
        rw [split_step_other (fun hc => hr hc.symm)]
        exact h
      rw [ih _ ab _ hstep]
      congr 2
      rw [List.filter_cons_of_neg (by simpa using hr)]

theorem split_foldl_none :
    ∀ (rows : List AEPair) (d : AbbrevDict) (ab : List Char),
      alookup d ab = none →
      alookup (rows.foldl split_generators_step d) ab =
        (if ab ∈ rows.map Prod.fst then
          some ((rows.filter fun r => r.1 = ab).map fun r => r.2)
        else none) := by
  intro rows
  induction rows with
  | nil =>
    intro d ab h
    simpa using h
  | cons r rest ih =>
    intro d ab h
    rw [List.foldl_cons]
    by_cases hr : r.1 = ab
    · have hstep : alookup (split_generators_step d r) ab = some [r.2] := by
        rw [← hr]
        exact split_step_self_none (by rw [hr]; exact h)
      rw [split_foldl_some rest _ ab [r.2] hstep]
      rw [if_pos (by simp only [List.map_cons, List.mem_cons]; exact Or.inl hr.symm)]
      congr 1
      rw [List.filter_cons_of_pos (by simpa using hr), List.map_cons]
      simp
    · have hstep : alookup (split_generators_step d r) ab = none := by
        rw [split_step_other (fun hc => hr hc.symm)]
        exact h
      rw [ih _ ab hstep]
      have hfil : (r :: rest).filter (fun r0 => r0.1 = ab) =
          rest.filter (fun r0 => r0.1 = ab) :=
        List.filter_cons_of_neg (by simpa using hr)
      by_cases hm : ab ∈ rest.map Prod.fst
      · rw [if_pos hm,
          if_pos (by simp only [List.map_cons, List.mem_cons]; exact Or.inr hm), hfil]
      · rw [if_neg hm, if_neg (by
          simp only [List.map_cons, List.mem_cons]
          rintro (h1 | h1)
          · exact hr h1.symm
          · exact hm h1)]

theorem dedup_into_nodup :
    ∀ (l : List (List Char)) (acc : List (List Char)), acc.Nodup →
      (dedup_into acc l).Nodup := by
  intro l
  induction l with
  | nil => intro acc h; exact h
  | cons e rest ih =>
    intro acc h
    show (dedup_into (if e ∈ acc then acc else acc ++ [e]) rest).Nodup
    by_cases hm : e ∈ acc
    · rw [if_pos hm]
      exact ih acc h
    · rw [if_neg hm]
      refine ih _ ?_
      rw [← List.concat_eq_append]
      exact List.Nodup.concat hm h

/-- C5 as stated is false for the dictionary the pipeline actually uses: the
loop in `_split_generators` appends every row's expansion unconditionally, so
a duplicated row produces a duplicated expansion. -/
theorem c5_counterexample :
    alookup (split_generators_dict
        [("pt".toList, "patient".toList), ("pt".toList, "patient".toList)])
      ("pt".toList) = some ["patient".toList, "patient".toList] ∧
    ¬ (["patient".toList, "patient".toList] : List (List Char)).Nodup :=
  ⟨by decide, by decide⟩

/-- C5 amended: the helper `_convert_abbrev_expansion_table_to_dict` maps each
abbreviation to its expansions in first-seen order with no duplicates
(an expansion is appended only if not already present), but the dictionary
actually built by `_split_generators` appends every row's expansion
unconditionally, keeping duplicates. -/
theorem c5_loader_characterization (rows : List AEPair) (ab : List Char) :
    alookup (convert_abbrev_expansion_table_to_dict rows) ab =
      (if ab ∈ rows.map Prod.fst then
        some (first_seen_dedup_spec ((rows.filter fun r => r.1 = ab).map fun r => r.2))
      else none) ∧
    (∀ es, alookup (convert_abbrev_expansion_table_to_dict rows) ab = some es →
      es.Nodup) ∧
    alookup (split_generators_dict rows) ab =
      (if ab ∈ rows.map Prod.fst then
        some ((rows.filter fun r => r.1 = ab).map fun r => r.2)
      else none) := by
  have hconv : alookup (convert_abbrev_expansion_table_to_dict rows) ab =
      (if ab ∈ rows.map Prod.fst then
        some (dedup_into [] ((rows.filter fun r => r.1 = ab).map fun r => r.2))
      else none) := conv_foldl_none rows [] ab rfl
  have hsplit : alookup (split_generators_dict rows) ab =
      (if ab ∈ rows.map Prod.fst then
        some ((rows.filter fun r => r.1 = ab).map fun r => r.2)
      else none) := split_foldl_none rows [] ab rfl
  refine ⟨hconv, ?_, hsplit⟩
  intro es hes
  rw [hconv] at hes
  split_ifs at hes with hm
  injection hes with hes1
  rw [← hes1]
  exact dedup_into_nodup _ [] List.nodup_nil

/-- Witness for C5: the de-duplicated expansion list for `"pt"` built by the
conversion helper from a duplicated row source is duplicate-free. -/
theorem c5_loader_characterization_witness :
    (["patient".toList] : List (List Char)).Nodup :=
  (c5_loader_characterization
      [("pt".toList, "patient".toList), ("pt".toList, "patient".toList)]
      ("pt".toList)).2.1 ["patient".toList] (by decide)

end C4WSRS
